import Mathlib

/-!
Verification of the data-access layer of the pokemon-explorer repository.

The layer under study lives in the two `lib/pokemonApi` variants of the
repository (src/unnamed/part_003 and src/unnamed/part_004) together with
src/types/pokemon.ts.  The shallow embedding below models:

* JS strings as lists of UTF-16 code units (`Str := List Nat`);
* the JS `Map` that backs `LRUCache` and `pendingRequests` as an association
  list kept in insertion order (head = oldest entry), which is exactly the
  iteration order of a JS `Map`; a `Map` holds at most one entry per key,
  so `Map.delete k` is removing every pair whose key is `k`;
* the single-threaded event loop as explicit sequences of actions applied to
  an explicit state, with network completion order an arbitrary parameter;
* fallible network reads as oracle functions returning `Option`/outcome data.
-/

/-- A JS string, as its list of UTF-16 code units. -/
abbrev Str := List Nat

/-- Association-list lookup, modelling `Map.get` (and `Map.has` via `isSome`):
the first entry with the given key. -/
def lookupKey {κ V : Type} [DecidableEq κ] (k : κ) : List (κ × V) → Option V
  | [] => none
  | e :: t => if e.1 = k then some e.2 else lookupKey k t

/-- Association-list deletion, modelling `Map.delete k`.  A JS `Map` holds at
most one entry per key, so deleting the key's entry is the same as removing
every pair whose key is `k`. -/
def eraseKey {κ V : Type} [DecidableEq κ] (k : κ) : List (κ × V) → List (κ × V)
  | [] => []
  | e :: t => if e.1 = k then eraseKey k t else e :: eraseKey k t

/-- The `LRUCache<T>` class (part_003 lines 6-46, part_004 lines 9-49):
a `Map<string, T>` in insertion order plus a fixed `maxSize`. -/
structure LRUCache (T : Type) where
  entries : List (Str × T)
  maxSize : Nat

/-- A freshly constructed `LRUCache` (`new LRUCache(maxSize)`). -/
def LRUCache.empty (T : Type) (cap : Nat) : LRUCache T := ⟨[], cap⟩

/-- `LRUCache.get`: on a hit the entry is deleted and re-inserted at the end
of the `Map` (most recently used); on a miss nothing changes.  Returns the
looked-up value together with the updated cache. -/
def LRUCache.get {T : Type} (c : LRUCache T) (k : Str) : Option T × LRUCache T :=
  match lookupKey k c.entries with
  | some v => (some v, { c with entries := eraseKey k c.entries ++ [(k, v)] })
  | none => (none, c)

/-- `LRUCache.set`: a present key is deleted first (then re-inserted at the
end); otherwise, when `size >= maxSize`, the first `Map` entry (the least
recently used one) is deleted; finally the new pair is inserted at the end.
On an empty map `keys().next().value` is `undefined` and the delete is a
no-op, which `List.tail [] = []` models. -/
def LRUCache.set {T : Type} (c : LRUCache T) (k : Str) (v : T) : LRUCache T :=
  if (lookupKey k c.entries).isSome then
    { c with entries := eraseKey k c.entries ++ [(k, v)] }
  else if c.maxSize ≤ c.entries.length then
    { c with entries := c.entries.tail ++ [(k, v)] }
  else
    { c with entries := c.entries ++ [(k, v)] }

/-- `LRUCache.has`. -/
def LRUCache.has {T : Type} (c : LRUCache T) (k : Str) : Bool :=
  (lookupKey k c.entries).isSome

/-- `LRUCache.size`. -/
def LRUCache.size {T : Type} (c : LRUCache T) : Nat := c.entries.length

/-- `LRUCache.clear`. -/
def LRUCache.clear {T : Type} (c : LRUCache T) : LRUCache T := { c with entries := [] }

/-- One client operation on an `LRUCache`. -/
inductive CacheOp (T : Type)
  | get (k : Str)
  | set (k : Str) (v : T)

/-- Apply one client operation to a cache (the value returned by `get` is
dropped; only the state matters here). -/
def applyOp {T : Type} (c : LRUCache T) : CacheOp T → LRUCache T
  | .get k => (c.get k).2
  | .set k v => c.set k v

/-- Run a sequence of operations against a freshly constructed cache of the
given capacity. -/
def runOps (T : Type) (cap : Nat) (ops : List (CacheOp T)) : LRUCache T :=
  ops.foldl applyOp (LRUCache.empty T cap)

/-- Remove the first occurrence of a key from a key list (used by the
spec-side recency order). -/
def eraseName (k : Str) : List Str → List Str
  | [] => []
  | x :: t => if x = k then t else x :: eraseName k t

/-- Modelled from the spec: the recency order of the cached keys, oldest
first, as §3/§4.1 describe it — `get` on a present key and `set` on a
present key move the key to the most-recently-used (last) position; `set`
on a new key at full capacity first evicts the least-recently-used (first)
key.  Used to compare the code's `Map` insertion order against the spec's
recency discipline. -/
def recencyStep {T : Type} (cap : Nat) (ks : List Str) : CacheOp T → List Str
  | .get k => if k ∈ ks then eraseName k ks ++ [k] else ks
  | .set k _ =>
    if k ∈ ks then eraseName k ks ++ [k]
    else if cap ≤ ks.length then ks.tail ++ [k]
    else ks ++ [k]

/-- The spec-side recency order after a whole sequence of operations. -/
def recencyRun (T : Type) (cap : Nat) (ops : List (CacheOp T)) : List Str :=
  ops.foldl (recencyStep cap) []

/-- Outcome of one network read, as seen by the axios response interceptor
(part_003 lines 84-99, part_004 lines 88-103): a successful response, an
error response carrying an HTTP status, or a timeout — a timeout error has
no `error.response` at all, hence no status. -/
inductive RespOutcome
  | ok (v : Nat)
  | httpErr (status : Nat)
  | timeoutErr
deriving DecidableEq

/-- Result of running one logical request through the retry interceptor:
the final outcome, the number of network operations performed, and the list
of backoff delays (in seconds) that were awaited. -/
structure RunResult where
  final : RespOutcome
  calls : Nat
  delays : List Nat
deriving DecidableEq

/-- The retry interceptor: given the outcome of the i-th network attempt
(`resp i`), a request whose config carries retry counter `retry` either
succeeds, or — when `config.retry < 3` and `error.response?.status >= 500` —
increments the counter, awaits `Math.pow(2, config.retry)` seconds and
re-issues the request; otherwise the error is surfaced.  A timeout has no
`error.response`, so `error.response?.status >= 500` is false and it is
surfaced at once. -/
def runFetch (resp : Nat → RespOutcome) (i retry : Nat) : RunResult :=
  match resp i with
  | .ok v => ⟨.ok v, 1, []⟩
  | .httpErr st =>
    if h : retry < 3 ∧ 500 ≤ st then
      let r := runFetch resp (i + 1) (retry + 1)
      ⟨r.final, r.calls + 1, 2 ^ (retry + 1) :: r.delays⟩
    else ⟨.httpErr st, 1, []⟩
  | .timeoutErr => ⟨.timeoutErr, 1, []⟩
termination_by 4 - retry
decreasing_by omega

/-- Outcome of one in-flight operation: the promise resolves with a value or
rejects with an error. -/
inductive FetchOutcome
  | ok (v : Nat)
  | err (e : Nat)
deriving DecidableEq

/-- One event-loop action against the fetch layer for a single logical key
(`fetchPokemonDetails` / `fetchPokemonFromUrl`, part_003 lines 136-197,
part_004 lines 131-173): a caller invokes the fetch function for key `k`, or
the in-flight request for key `k` settles with an outcome.  Between these
actions no other code touches the caches, because the event loop is
single-threaded and the bodies run synchronously between await points. -/
inductive RegAct
  | call (k : Str)
  | settle (k : Str) (o : FetchOutcome)

/-- The shared state of the fetch layer for one value cache: the `LRUCache`
(`pokemonCache`), the `pendingRequests` map from cache key to the identity
of the in-flight operation, a counter supplying fresh operation identities,
and two logs recording every network operation ever started and every
operation that settled (with its outcome), newest first. -/
structure Registry where
  cache : LRUCache Nat
  pending : List (Str × Nat)
  nextOp : Nat
  started : List (Nat × Str)
  settled : List (Nat × Str × FetchOutcome)

/-- The initial state: empty caches, no pending requests. -/
def Registry.init (cap : Nat) : Registry :=
  ⟨LRUCache.empty Nat cap, [], 0, [], []⟩

/-- One step of the fetch layer.  `call k` follows the body of
`fetchPokemonDetails`: a cache hit returns the cached value (the LRU `get`
promotes the key); otherwise, if `pendingRequests.has(cacheKey)`, the caller
just awaits the already-registered promise; otherwise a new network request
is started and registered.  `settle k o` is the synchronous completion block
of the registered request: on success the value is written to the cache,
and in both cases the `finally` clause deletes the registration. -/
def regStep (s : Registry) : RegAct → Registry
  | .call k =>
    if s.cache.has k then
      { s with cache := (s.cache.get k).2 }
    else
      match lookupKey k s.pending with
      | some _ => s
      | none =>
        { s with
          pending := (k, s.nextOp) :: s.pending,
          started := (s.nextOp, k) :: s.started,
          nextOp := s.nextOp + 1 }
  | .settle k o =>
    match lookupKey k s.pending with
    | some op =>
      { s with
        cache := match o with
          | .ok v => s.cache.set k v
          | .err _ => s.cache,
        pending := eraseKey k s.pending,
        settled := (op, k, o) :: s.settled }
    | none => s

/-- Run a sequence of actions from the initial state (`pokemonCache` has
capacity 300 in the source; the capacity is a parameter here). -/
def runReg (cap : Nat) (acts : List RegAct) : Registry :=
  acts.foldl regStep (Registry.init cap)

/-- How many network operations were ever started for key `k`. -/
def startsFor (s : Registry) (k : Str) : Nat :=
  s.started.countP (fun e => decide (e.2 = k))

/-- How many network operations for key `k` have settled. -/
def settlesFor (s : Registry) (k : Str) : Nat :=
  s.settled.countP (fun e => decide (e.2.1 = k))

/-- Invariant of the fetch layer maintained by every reachable state. -/
structure RegInv (s : Registry) : Prop where
  pendKeysNodup : (s.pending.map Prod.fst).Nodup
  pendOpsNodup : (s.pending.map Prod.snd).Nodup
  pendOpsLt : ∀ e ∈ s.pending, e.2 < s.nextOp
  settledLt : ∀ d ∈ s.settled, d.1 < s.nextOp
  pendSettledDisj : ∀ e ∈ s.pending, ∀ d ∈ s.settled, e.2 ≠ d.1
  settledOpsNodup : (s.settled.map Prod.fst).Nodup
  counts : ∀ k, startsFor s k =
    settlesFor s k + (if (lookupKey k s.pending).isSome then 1 else 0)

/-- An entity reference in the full index (`PokemonListItem`): a (name,
locator) pair. -/
structure PokemonListItem where
  name : Str
  url : Str
deriving DecidableEq

/-- A `{ name: string }` wrapper as it appears nested in the API payload. -/
structure NamedRef where
  name : Str
deriving DecidableEq

/-- One element of `RawPokemon.types`. -/
structure TypeEntry where
  type : NamedRef
deriving DecidableEq

/-- One element of `RawPokemon.abilities`. -/
structure AbilityEntry where
  ability : NamedRef
deriving DecidableEq

/-- One element of `RawPokemon.stats`. -/
structure StatEntry where
  stat : NamedRef
  base_stat : Nat
deriving DecidableEq

/-- One element of `RawPokemon.moves`. -/
structure MoveEntry where
  move : NamedRef
deriving DecidableEq

/-- The sprite bag of a `RawPokemon`: the default sprite and the
`other['official-artwork']` sprite, each possibly absent. -/
structure Sprites where
  front_default : Option Str
  officialArtwork : Option Str
deriving DecidableEq

/-- A raw catalog entry (`RawPokemon`, src/types/pokemon.ts lines 22-56). -/
structure RawPokemon where
  id : Nat
  name : Str
  height : Nat
  weight : Nat
  sprites : Sprites
  types : List TypeEntry
  abilities : List AbilityEntry
  stats : List StatEntry
  moves : List MoveEntry
deriving DecidableEq

/-- The comparator `(a, b) => a.id - b.id` used by `batchFetchPokemon`, as
the ordering it sorts by. -/
def idLe (a b : RawPokemon) : Prop := a.id ≤ b.id

instance : DecidableRel idLe := fun a b => inferInstanceAs (Decidable (a.id ≤ b.id))

instance : IsTotal RawPokemon idLe := ⟨fun a b => Nat.le_total a.id b.id⟩

instance : IsTrans RawPokemon idLe := ⟨fun _ _ _ => Nat.le_trans⟩

/-- The chunks produced by the loop `for (i = 0; i < items.length; i +=
concurrency) slice(i, i + concurrency)` of `batchFetchPokemon` (part_003
lines 207-216), for `concurrency ≥ 1`.  The `fuel` argument of the helper is
a termination device only; it starts at the list length and is never
exhausted. -/
def chunksOfAux {α : Type} (c : Nat) : Nat → List α → List (List α)
  | _, [] => []
  | 0, x :: xs => [x :: xs]
  | fuel + 1, x :: xs => (x :: xs.take (c - 1)) :: chunksOfAux c fuel (xs.drop (c - 1))

/-- The chunk decomposition of the input list, chunk size `c`. -/
def chunksOf {α : Type} (c : Nat) (l : List α) : List (List α) :=
  chunksOfAux c l.length l

/-- All fetch results accumulated in `results` once every chunk's
`Promise.all` has settled: chunks are pushed contiguously in the order the
chunks complete (`order` lists chunk indices in completion order), each
chunk's results in chunk order. -/
def batchCollect (fetch : PokemonListItem → RawPokemon) (items : List PokemonListItem)
    (c : Nat) (order : List Nat) : List RawPokemon :=
  ((order.filterMap (fun i => (chunksOf c items)[i]?)).flatten).map fetch

/-- `batchFetchPokemon` (part_003 lines 200-220, part_004 lines 175-195):
after all chunks settle, `results.sort((a, b) => a.id - b.id)` sorts the
accumulated results ascending by id (modelled by a stable sort by `idLe`).
`fetch` abstracts `fetchPokemonFromUrl`'s resolved value for each item and
`order` the completion order of the chunks. -/
def batchFetchPokemon (fetch : PokemonListItem → RawPokemon) (items : List PokemonListItem)
    (c : Nat) (order : List Nat) : List RawPokemon :=
  List.insertionSort idLe (batchCollect fetch items c order)

/-- A network-lifecycle event for one reference: its fetch is issued, or it
settles. -/
inductive NetEv (α : Type)
  | issue (r : α)
  | settle (r : α)
deriving DecidableEq

/-- The issue events produced by the `for` loop of `batchFetchPokemon`.  The
loop body contains no `await`: `batch.map(item => fetchPokemonFromUrl(item.url))`
invokes every fetch (issuing its network request before returning a promise),
and only promises are pushed; so on the single-threaded event loop every
chunk's fetches are issued synchronously, chunk after chunk, before the
function first suspends at `await Promise.all(promises)`. -/
def batchIssueTrace {α : Type} (items : List α) (c : Nat) : List (NetEv α) :=
  ((chunksOf c items).map (fun b => b.map NetEv.issue)).flatten

/-- A full event trace of one `batchFetchPokemon` call over distinct uncached
references: the loop first issues every fetch (synchronously, see
`batchIssueTrace`), and the settle events can only be processed in later
event-loop turns, after the loop has finished. -/
def batchLoopTrace {α : Type} (items : List α) (c : Nat) (settleOrder : List α) :
    List (NetEv α) :=
  batchIssueTrace items c ++ settleOrder.map NetEv.settle

/-- Fold step tracking (current unsettled count, maximal unsettled count). -/
def inFlightStep {α : Type} : Nat × Nat → NetEv α → Nat × Nat
  | (cur, mx), .issue _ => (cur + 1, max mx (cur + 1))
  | (cur, mx), .settle _ => (cur - 1, mx)

/-- The largest number of simultaneously unsettled network operations along
a trace. -/
def maxInFlight {α : Type} (t : List (NetEv α)) : Nat :=
  (t.foldl inFlightStep (0, 0)).2

/-- `String.prototype.toLowerCase` on one code unit (the ASCII range, which
covers every name in the catalog): `A`..`Z` (65..90) map 32 up. -/
def lowerNat (n : Nat) : Nat := if 65 ≤ n ∧ n ≤ 90 then n + 32 else n

/-- Whitespace test used by `String.prototype.trim` (space, tab, LF, CR). -/
def isWSn (n : Nat) : Bool := decide (n = 32 ∨ n = 9 ∨ n = 10 ∨ n = 13)

/-- `toLowerCase` on a whole string. -/
def lowerStr (s : Str) : Str := s.map lowerNat

/-- `String.prototype.trim`: drop whitespace from both ends. -/
def trimStr (s : Str) : Str :=
  ((s.dropWhile isWSn).reverse.dropWhile isWSn).reverse

/-- Does `s` start with `pre`? (helper for `String.prototype.includes`). -/
def startsWith : Str → Str → Bool
  | [], _ => true
  | _ :: _, [] => false
  | a :: ps, b :: ss => a == b && startsWith ps ss

/-- `String.prototype.includes`: does `sub` occur contiguously in `s`? -/
def strIncludes : Str → Str → Bool
  | [], sub => sub.isEmpty
  | c :: t, sub => startsWith sub (c :: t) || strIncludes t sub

/-- The filter step of `searchPokemon` in part_003 (lines 239-244): the query
is lowercased and trimmed, then every index name is lowercased and tested
for containing the normalized query; the first `maxResults` matches in index
order are kept. -/
def searchFilter (query : Str) (allPokemon : List PokemonListItem) (maxResults : Nat) :
    List PokemonListItem :=
  let normalizedQuery := trimStr (lowerStr query)
  (allPokemon.filter (fun p => strIncludes (lowerStr p.name) normalizedQuery)).take maxResults

/-- The filter step of `searchPokemon` in the part_004 variant (lines
208-211): identical, except that the index name is NOT lowercased
(`p.name.includes(normalized)`). -/
def searchFilterAlt (query : Str) (allPokemon : List PokemonListItem) (maxResults : Nat) :
    List PokemonListItem :=
  let normalized := trimStr (lowerStr query)
  (allPokemon.filter (fun p => strIncludes p.name normalized)).take maxResults

/-- Modelled from the spec: "case-insensitive substring match of the query
against every name" — `q` occurs in `n` when both are lowercased. -/
def ciMatchB (q n : Str) : Bool := strIncludes (lowerStr n) (lowerStr q)

/-- A derived summary (`PokemonSummary`): id, name, locator, optional sprite
and optional type list (the failure fallback carries neither field). -/
structure PokemonSummary where
  id : Nat
  name : Str
  url : Str
  sprite : Option Str
  types : Option (List Str)
deriving DecidableEq

/-- The code units of `"/pokemon/"`, the pattern anchor of the regex
`/\/pokemon\/(\d+)\//` in `getPokemonIdFromUrl`. -/
def urlMarker : Str := [47, 112, 111, 107, 101, 109, 111, 110, 47]

/-- ASCII digit test (`\d`). -/
def isDigitN (n : Nat) : Bool := decide (48 ≤ n ∧ n ≤ 57)

/-- `getPokemonIdFromUrl` (part_003 lines 321-324): the first position where
`/pokemon/` is followed by one or more digits and then `/` yields the digit
run; otherwise the result is null. -/
def getPokemonIdFromUrl : Str → Option Str
  | [] => none
  | c :: rest =>
    let s := c :: rest
    if urlMarker.isPrefixOf s then
      let after := s.drop urlMarker.length
      let ds := after.takeWhile isDigitN
      if ds ≠ [] ∧ (after.drop ds.length).head? = some 47 then some ds
      else getPokemonIdFromUrl rest
    else getPokemonIdFromUrl rest

/-- `parseInt` on a string of decimal digits. -/
def parseDigits (ds : Str) : Nat := ds.foldl (fun acc d => 10 * acc + (d - 48)) 0

/-- `parseInt(id || '0')` where `id = getPokemonIdFromUrl(item.url)`: the id
parsed from the locator if the regex matches, otherwise 0. -/
def fallbackId (url : Str) : Nat :=
  match getPokemonIdFromUrl url with
  | some ds => parseDigits ds
  | none => 0

/-- The code units of `"summary_"`, prefixed to a name to form the summary
cache key. -/
def summaryMarker : Str := [115, 117, 109, 109, 97, 114, 121, 95]

/-- The summary-cache key `` `summary_${name}` ``. -/
def summaryKey (name : Str) : Str := summaryMarker ++ name

/-- JavaScript `x || undefined` on an optional string: an absent or empty
(falsy) string becomes `undefined`. -/
def jsStrOrNone (s : Option Str) : Option Str :=
  match s with
  | some s' => if s'.isEmpty then none else some s'
  | none => none

/-- The resolve step of `searchPokemon` for one uncached match (part_003
lines 262-286): on a successful fetch, a full summary is built (and cached —
the cache write does not affect the returned list); when the fetch throws,
the catch block returns the minimal summary with only id (parsed from the
locator if possible), name (from the index) and locator — no sprite, no
types.  `fetchRes` abstracts the settled outcome of `fetchPokemonFromUrl`. -/
def resolveMatch (fetchRes : PokemonListItem → Option RawPokemon)
    (item : PokemonListItem) : PokemonSummary :=
  match fetchRes item with
  | some pokemon =>
    { id := pokemon.id
      name := pokemon.name
      url := item.url
      sprite := jsStrOrNone pokemon.sprites.front_default
      types := some (pokemon.types.map (fun t => t.type.name)) }
  | none =>
    { id := fallbackId item.url
      name := item.name
      url := item.url
      sprite := none
      types := none }

/-- `matches.findIndex(m => m.name === a.name)` — the rank of a summary in
the final sort: the first index in `matches` whose name equals the summary's
name, `-1` when there is none. -/
def matchRank (ms : List PokemonListItem) (a : PokemonSummary) : Int :=
  match ms.findIdx? (fun m => m.name == a.name) with
  | some i => (i : Int)
  | none => -1

/-- The ordering realized by the final comparator
`aIndex - bIndex || a.id - b.id`: by rank, ties broken by id. -/
def resLe (ms : List PokemonListItem) (a b : PokemonSummary) : Prop :=
  matchRank ms a < matchRank ms b ∨
    (matchRank ms a = matchRank ms b ∧ a.id ≤ b.id)

instance (ms : List PokemonListItem) : DecidableRel (resLe ms) :=
  fun a b => inferInstanceAs (Decidable (matchRank ms a < matchRank ms b ∨
    (matchRank ms a = matchRank ms b ∧ a.id ≤ b.id)))

/-- The resolve-and-order phase of `searchPokemon` over the filtered matches
(part_003 lines 247-300): matches found in the summary cache are taken from
it in match order; the remaining matches are fetched (each falling back to a
minimal summary on failure, see `resolveMatch`); the concatenation is sorted
by the rank/id comparator.  `sCache` is the entry list of `summaryCache`
(the LRU promotion performed by `get` never changes the value returned). -/
def searchResolve (sCache : List (Str × PokemonSummary))
    (fetchRes : PokemonListItem → Option RawPokemon)
    (ms : List PokemonListItem) : List PokemonSummary :=
  let cached := ms.filterMap (fun m => lookupKey (summaryKey m.name) sCache)
  let toFetch := ms.filter (fun m => (lookupKey (summaryKey m.name) sCache).isNone)
  List.insertionSort (resLe ms) (cached ++ toFetch.map (resolveMatch fetchRes))

/-- Observable outcome of one `searchPokemon` invocation: how long the
debounce timer ran before the result was produced, the resolved result, and
how many `fetchPokemonFromUrl` calls were made. -/
structure SearchRun where
  delayMs : Nat
  result : List PokemonSummary
  networkCalls : Nat
deriving DecidableEq

/-- One `searchPokemon` invocation (part_003 lines 223-305), with no later
keystroke superseding it.  The body runs inside `setTimeout(..., 300)`, so
even the empty-query check only executes after the 300 ms debounce delay;
an empty or whitespace-only query then resolves `[]` without touching the
index or the network. -/
def searchPokemonRun (sCache : List (Str × PokemonSummary))
    (fetchRes : PokemonListItem → Option RawPokemon)
    (query : Str) (allPokemon : List PokemonListItem) (maxResults : Nat) : SearchRun :=
  if (trimStr query).isEmpty then
    { delayMs := 300, result := [], networkCalls := 0 }
  else
    let ms := searchFilter query allPokemon maxResults
    { delayMs := 300
      result := searchResolve sCache fetchRes ms
      networkCalls :=
        (ms.filter (fun m => (lookupKey (summaryKey m.name) sCache).isNone)).length }

/-- The formatted projection (`FormattedPokemon`, src/types/pokemon.ts lines
58-71); `image` is optional because `x || y` may still produce `undefined`. -/
structure FormattedPokemon where
  id : Nat
  name : Str
  image : Option Str
  types : List Str
  height : Nat
  weight : Nat
  abilities : List Str
  stats : List (Str × Nat)
  moves : List Str
deriving DecidableEq

/-- JavaScript `a || b` on optional strings (empty string is falsy). -/
def jsOrStr (a b : Option Str) : Option Str :=
  match a with
  | some s => if s.isEmpty then b else some s
  | none => b

/-- `formatPokemonData` (src/types/pokemon.ts lines 79-94).  The behavior
list is `pokemon.moves.slice(0, 10).map(move => move.move.name)`. -/
def formatPokemonData (pokemon : RawPokemon) : FormattedPokemon :=
  { id := pokemon.id
    name := pokemon.name
    image := jsOrStr pokemon.sprites.officialArtwork pokemon.sprites.front_default
    types := pokemon.types.map (fun t => t.type.name)
    height := pokemon.height
    weight := pokemon.weight
    abilities := pokemon.abilities.map (fun a => a.ability.name)
    stats := pokemon.stats.map (fun s => (s.stat.name, s.base_stat))
    moves := (pokemon.moves.take 10).map (fun m => m.move.name) }

/-- A minimal raw entry with a given id, used as a concrete fetch result. -/
def mkRaw (i : Nat) : RawPokemon :=
  { id := i, name := [110], height := 1, weight := 1,
    sprites := { front_default := none, officialArtwork := none },
    types := [], abilities := [], stats := [], moves := [] }

/-- A raw entry with twelve moves (move names `d0`, `d1`, ...). -/
def samplePokemon12 : RawPokemon :=
  { mkRaw 25 with moves := (List.range 12).map (fun i => ⟨⟨[100, i]⟩⟩) }

/-- The code units of `"/pokemon/25/"`. -/
def url25 : Str := urlMarker ++ [50, 53, 47]

/-- Three references named `a`, `b`, `c`. -/
def wItems : List PokemonListItem := [⟨[97], []⟩, ⟨[98], []⟩, ⟨[99], []⟩]

/-- A concrete fetch oracle for `wItems`: `a ↦ id 5`, `b ↦ id 1`, `c ↦ id 3`. -/
def wFetch (it : PokemonListItem) : RawPokemon :=
  if it.name = [97] then mkRaw 5 else if it.name = [98] then mkRaw 1 else mkRaw 3

/-- A response oracle that fails with 503 twice, then succeeds. -/
def wResp (i : Nat) : RespOutcome := if i < 2 then .httpErr 503 else .ok 7

/-- The index entry `pikachu` (lowercase, as the catalog serves names). -/
def wIdxP : List PokemonListItem := [⟨[112, 105, 107, 97, 99, 104, 117], []⟩]

/-- A reference whose detail fetch will fail: name `pi`, locator
`/pokemon/25/`. -/
def wFailItem : PokemonListItem := ⟨[112, 105], url25⟩

/-- The LRU-correctness scenario of spec §8: insert `a`, insert `b`, touch
`a`, insert `c` into a capacity-2 cache. -/
def wOps : List (CacheOp Nat) :=
  [.set [97] 1, .set [98] 2, .get [97], .set [99] 3]

/-- Two concurrent calls for the same key. -/
def wActs : List RegAct := [.call [97], .call [97]]

/-- Helper: a key is in the key image of an association list iff `lookupKey`
finds it. -/
theorem lookupKey_isSome_iff {κ V : Type} [DecidableEq κ] (k : κ) (l : List (κ × V)) :
    (lookupKey k l).isSome = true ↔ k ∈ l.map Prod.fst := by
  induction l with
  | nil => simp [lookupKey]
  | cons e t ih =>
    by_cases h : e.1 = k
    · simp [lookupKey, h]
    · simp [lookupKey, h, ih, Ne.symm h]

/-- Helper: `lookupKey` misses exactly the keys outside the key image. -/
theorem lookupKey_eq_none_iff {κ V : Type} [DecidableEq κ] (k : κ) (l : List (κ × V)) :
    lookupKey k l = none ↔ k ∉ l.map Prod.fst := by
  rw [← lookupKey_isSome_iff (V := V) k l]
  cases lookupKey k l <;> simp

/-- Helper: a successful lookup exhibits a member of the list. -/
theorem lookupKey_mem {κ V : Type} [DecidableEq κ] {k : κ} {v : V} {l : List (κ × V)}
    (h : lookupKey k l = some v) : (k, v) ∈ l := by
  induction l with
  | nil => simp [lookupKey] at h
  | cons e t ih =>
    obtain ⟨e1, e2⟩ := e
    rw [lookupKey] at h
    by_cases he : e1 = k
    · rw [if_pos he] at h
      injection h with h2
      subst he
      subst h2
      exact List.mem_cons_self _ _
    · rw [if_neg he] at h
      exact List.mem_cons_of_mem _ (ih h)

/-- Helper: deletion yields a sublist. -/
theorem eraseKey_sublist {κ V : Type} [DecidableEq κ] (k : κ) (l : List (κ × V)) :
    (eraseKey k l).Sublist l := by
  induction l with
  | nil => simp [eraseKey]
  | cons e t ih =>
    rw [eraseKey]
    by_cases he : e.1 = k
    · rw [if_pos he]
      exact ih.cons e
    · rw [if_neg he]
      exact ih.cons₂ e

/-- Helper: membership after deletion. -/
theorem mem_eraseKey {κ V : Type} [DecidableEq κ] {k : κ} {e : κ × V} {l : List (κ × V)} :
    e ∈ eraseKey k l ↔ e ∈ l ∧ e.1 ≠ k := by
  induction l with
  | nil => simp [eraseKey]
  | cons f t ih =>
    rw [eraseKey]
    by_cases hf : f.1 = k
    · rw [if_pos hf, ih]
      simp only [List.mem_cons]
      constructor
      · rintro ⟨h1, h2⟩
        exact ⟨Or.inr h1, h2⟩
      · rintro ⟨h | h1, h2⟩
        · subst h
          exact absurd hf h2
        · exact ⟨h1, h2⟩
    · rw [if_neg hf]
      simp only [List.mem_cons, ih]
      constructor
      · rintro (h | ⟨h1, h2⟩)
        · subst h
          exact ⟨Or.inl rfl, hf⟩
        · exact ⟨Or.inr h1, h2⟩
      · rintro ⟨h | h, h2⟩
        · exact Or.inl h
        · exact Or.inr ⟨h, h2⟩

/-- Helper: after deleting `k` the key `k` is gone. -/
theorem lookupKey_eraseKey_self {κ V : Type} [DecidableEq κ] (k : κ) (l : List (κ × V)) :
    lookupKey k (eraseKey k l) = none := by
  rw [lookupKey_eq_none_iff]
  intro hmem
  rcases List.mem_map.mp hmem with ⟨e, he, hfst⟩
  exact (mem_eraseKey.mp he).2 hfst

/-- Helper: deleting another key does not change a lookup. -/
theorem lookupKey_eraseKey_ne {κ V : Type} [DecidableEq κ] {k' k : κ} (l : List (κ × V))
    (h : k' ≠ k) : lookupKey k' (eraseKey k l) = lookupKey k' l := by
  induction l with
  | nil => simp [eraseKey]
  | cons e t ih =>
    rw [eraseKey]
    by_cases he : e.1 = k
    · have hne : ¬ e.1 = k' := fun hek => h (hek.symm.trans he)
      rw [if_pos he, ih, lookupKey, if_neg hne]
    · rw [if_neg he]
      simp only [lookupKey]
      rw [ih]

/-- Helper: deleting an absent key is the identity. -/
theorem eraseKey_of_not_mem {κ V : Type} [DecidableEq κ] {k : κ} {l : List (κ × V)}
    (h : k ∉ l.map Prod.fst) : eraseKey k l = l := by
  induction l with
  | nil => rfl
  | cons e t ih =>
    simp only [List.map_cons, List.mem_cons, not_or] at h
    rw [eraseKey, if_neg (fun he => h.1 he.symm), ih h.2]

/-- Helper: a lookup in a concatenation tries the left part first. -/
theorem lookupKey_append {κ V : Type} [DecidableEq κ] (k : κ) (l l' : List (κ × V)) :
    lookupKey k (l ++ l') = (lookupKey k l).or (lookupKey k l') := by
  induction l with
  | nil => simp [lookupKey]
  | cons e t ih =>
    rw [List.cons_append, lookupKey, lookupKey]
    by_cases he : e.1 = k
    · rw [if_pos he, if_pos he, Option.or]
    · rw [if_neg he, if_neg he, ih]

/-- Helper: an absent key is not removed by `eraseName`. -/
theorem eraseName_of_not_mem {k : Str} {ks : List Str} (h : k ∉ ks) :
    eraseName k ks = ks := by
  induction ks with
  | nil => rfl
  | cons x t ih =>
    simp only [List.mem_cons, not_or] at h
    rw [eraseName, if_neg (fun hx => h.1 hx.symm), ih h.2]

/-- Helper: `eraseName` yields a sublist. -/
theorem eraseName_sublist (k : Str) (ks : List Str) : (eraseName k ks).Sublist ks := by
  induction ks with
  | nil => simp [eraseName]
  | cons x t ih =>
    rw [eraseName]
    by_cases hx : x = k
    · rw [if_pos hx]
      exact (List.sublist_cons_self x t)
    · rw [if_neg hx]
      exact ih.cons₂ x

/-- Helper: under `Nodup`, the erased key is gone. -/
theorem not_mem_eraseName {k : Str} {ks : List Str} (h : ks.Nodup) :
    k ∉ eraseName k ks := by
  induction ks with
  | nil => simp [eraseName]
  | cons x t ih =>
    rw [List.nodup_cons] at h
    rw [eraseName]
    by_cases hx : x = k
    · rw [if_pos hx]
      exact hx ▸ h.1
    · rw [if_neg hx]
      intro hmem
      rcases List.mem_cons.mp hmem with h' | h'
      · exact hx h'.symm
      · exact ih h.2 h'

/-- Helper: removing a present key drops exactly one element. -/
theorem length_eraseName {k : Str} {ks : List Str} (h : k ∈ ks) :
    (eraseName k ks).length + 1 = ks.length := by
  induction ks with
  | nil => simp at h
  | cons x t ih =>
    rw [eraseName]
    by_cases hx : x = k
    · rw [if_pos hx, List.length_cons]
    · rw [if_neg hx, List.length_cons, List.length_cons,
        ih (by rcases List.mem_cons.mp h with h' | h' <;> [exact absurd h'.symm hx; exact h'])]

/-- Helper: key deletion commutes with projecting the keys out, under
`Nodup`. -/
theorem map_fst_eraseKey_nodup {V : Type} {k : Str} {l : List (Str × V)}
    (h : (l.map Prod.fst).Nodup) :
    (eraseKey k l).map Prod.fst = eraseName k (l.map Prod.fst) := by
  induction l with
  | nil => rfl
  | cons e t ih =>
    simp only [List.map_cons, List.nodup_cons] at h
    rw [eraseKey, List.map_cons, eraseName]
    by_cases he : e.1 = k
    · rw [if_pos he, if_pos he, eraseKey_of_not_mem (he ▸ h.1)]
    · rw [if_neg he, if_neg he, List.map_cons, ih h.2]

/-- Helper: removing a present key shortens the list. -/
theorem length_eraseKey_lt {κ V : Type} [DecidableEq κ] {k : κ} {v : V} {l : List (κ × V)}
    (h : lookupKey k l = some v) : (eraseKey k l).length < l.length := by
  induction l with
  | nil => simp [lookupKey] at h
  | cons e t ih =>
    rw [lookupKey] at h
    rw [eraseKey]
    by_cases he : e.1 = k
    · rw [if_pos he]
      exact Nat.lt_succ_of_le (eraseKey_sublist k t).length_le
    · rw [if_neg he] at h ⊢
      simpa using ih h

/-- Helper: under `Nodup` keys, deleting a present key removes one entry. -/
theorem length_eraseKey_nodup {V : Type} {k : Str} {v : V}
    {l : List (Str × V)} (hnd : (l.map Prod.fst).Nodup) (h : lookupKey k l = some v) :
    (eraseKey k l).length + 1 = l.length := by
  have hmap := map_fst_eraseKey_nodup (k := k) hnd
  have hk : k ∈ l.map Prod.fst := by
    rw [← lookupKey_isSome_iff (V := V)]
    simp [h]
  calc (eraseKey k l).length + 1 = ((eraseKey k l).map Prod.fst).length + 1 := by
        rw [List.length_map]
    _ = (eraseName k (l.map Prod.fst)).length + 1 := by rw [hmap]
    _ = (l.map Prod.fst).length := length_eraseName hk
    _ = l.length := List.length_map _ _

/-- C10: for every raw catalog entry, the formatted projection's moves list
is exactly the first 10 moves of the raw entry in original order (fewer when
the raw entry has fewer than 10). -/
theorem formatPokemonData_moves_top10 (p : RawPokemon) :
    (formatPokemonData p).moves.length = min 10 p.moves.length ∧
    ∀ i : Nat, i < (formatPokemonData p).moves.length →
      (formatPokemonData p).moves[i]? = p.moves[i]?.map (fun m => m.move.name) := by
  constructor
  · simp [formatPokemonData]
  · intro i hi
    simp only [formatPokemonData, List.length_map, List.length_take, lt_min_iff] at hi
    simp only [formatPokemonData, List.getElem?_map, List.getElem?_take, if_pos hi.1]

/-- C10 witness: a concrete entry with twelve moves keeps exactly the first
ten, and position 2 is the raw entry's third move name. -/
theorem formatPokemonData_moves_top10_witness :
    (formatPokemonData samplePokemon12).moves[2]? =
      samplePokemon12.moves[2]?.map (fun m => m.move.name) :=
  (formatPokemonData_moves_top10 samplePokemon12).2 2 (by decide)

/-- Helper: under a persistent 5xx response, the interceptor performs the
initial call plus `rleft` retries (`retry + rleft = 3`), with delays
`2^(retry+1), ...` seconds, then surfaces the error. -/
theorem runFetch_const_httpErr (st : Nat) (hst : 500 ≤ st) :
    ∀ rleft retry, retry + rleft = 3 → ∀ i,
      runFetch (fun _ => RespOutcome.httpErr st) i retry =
        ⟨.httpErr st, rleft + 1, (List.range rleft).map (fun t => 2 ^ (retry + 1 + t))⟩ := by
  intro rleft
  induction rleft with
  | zero =>
    intro retry h3 i
    rw [runFetch.eq_def]
    simp only []
    rw [dif_neg (fun hc => absurd hc.1 (by omega))]
    simp
  | succ rl ih =>
    intro retry h3 i
    rw [runFetch.eq_def]
    simp only []
    rw [dif_pos ⟨by omega, hst⟩]
    simp only [ih (retry + 1) (by omega) (i + 1)]
    refine congrArg (fun d => RunResult.mk (.httpErr st) (rl + 1 + 1) d) ?_
    rw [List.range_succ_eq_map, List.map_cons, List.map_map]
    refine congrArg₂ List.cons (by rw [Nat.add_zero]) ?_
    refine List.map_congr_left (fun t _ => ?_)
    simp only [Function.comp_apply]
    rw [show retry + 1 + 1 + t = retry + 1 + (t + 1) from by omega]

/-- Helper: if the first `j ≤ 3 - retry` responses are 5xx and response `j`
succeeds, the interceptor returns the success after `j + 1` network calls. -/
theorem runFetch_ok_after (resp : Nat → RespOutcome) (v : Nat) :
    ∀ j i retry, j + retry ≤ 3 →
      (∀ t, t < j → ∃ st, 500 ≤ st ∧ resp (i + t) = .httpErr st) →
      resp (i + j) = .ok v →
      (runFetch resp i retry).final = .ok v ∧ (runFetch resp i retry).calls = j + 1 := by
  intro j
  induction j with
  | zero =>
    intro i retry _ _ hok
    rw [Nat.add_zero] at hok
    rw [runFetch.eq_def, hok]
    exact ⟨rfl, rfl⟩
  | succ j ih =>
    intro i retry h3 hlt hok
    obtain ⟨st, hst, hresp⟩ := hlt 0 (Nat.succ_pos j)
    rw [Nat.add_zero] at hresp
    rw [runFetch.eq_def, hresp]
    simp only []
    rw [dif_pos ⟨by omega, hst⟩]
    have ihh := ih (i + 1) (retry + 1) (by omega)
      (fun t ht => by
        obtain ⟨st', h1, h2⟩ := hlt (t + 1) (by omega)
        exact ⟨st', h1, by rwa [show i + 1 + t = i + (t + 1) from by omega]⟩)
      (by rwa [show i + 1 + j = i + (j + 1) from by omega])
    exact ⟨ihh.1, by simp only [ihh.2]⟩

/-- C5 counterexample: a timed-out request carries no `error.response`, so
`error.response?.status >= 500` is false, and the interceptor surfaces the
timeout after exactly one network call, with no backoff — the claim says a
timeout is treated as transient and retried up to 3 times. -/
theorem retryPolicy_timeout_cex :
    runFetch (fun _ => RespOutcome.timeoutErr) 0 0 = ⟨.timeoutErr, 1, []⟩ ∧
      (runFetch (fun _ => RespOutcome.timeoutErr) 0 0).calls ≠ 4 := by
  have h : runFetch (fun _ => RespOutcome.timeoutErr) 0 0 = ⟨.timeoutErr, 1, []⟩ := by
    rw [runFetch.eq_def]
  exact ⟨h, by rw [h]; decide⟩

/-- C5 (amended): a response with HTTP status >= 500 is retried up to 3
times with backoff delays 2^attempt seconds (2 s, 4 s, 8 s) before the
failure is surfaced; a response error with status < 500 (e.g. a 404
not-found) is surfaced immediately without retry; a timeout carries no
response status and is likewise surfaced immediately without retry; a
success on a retry within the budget is returned after exactly the calls
made so far. -/
theorem retryPolicy :
    (∀ st, 500 ≤ st → runFetch (fun _ => RespOutcome.httpErr st) 0 0 =
      ⟨.httpErr st, 4, [2, 4, 8]⟩) ∧
    (∀ st, st < 500 → runFetch (fun _ => RespOutcome.httpErr st) 0 0 =
      ⟨.httpErr st, 1, []⟩) ∧
    runFetch (fun _ => RespOutcome.timeoutErr) 0 0 = ⟨.timeoutErr, 1, []⟩ ∧
    (∀ resp v j, j ≤ 3 →
      (∀ t, t < j → ∃ st, 500 ≤ st ∧ resp t = RespOutcome.httpErr st) →
      resp j = RespOutcome.ok v →
      (runFetch resp 0 0).final = .ok v ∧ (runFetch resp 0 0).calls = j + 1) := by
  refine ⟨fun st hst => ?_, fun st hst => ?_, ?_, fun resp v j h3 hlt hok => ?_⟩
  · rw [runFetch_const_httpErr st hst 3 0 (by omega) 0]
    rfl
  · rw [runFetch.eq_def]
    simp only []
    rw [dif_neg (fun hc => absurd hc.2 (by omega))]
  · rw [runFetch.eq_def]
  · exact runFetch_ok_after resp v j 0 0 (by omega)
      (fun t ht => by simpa using hlt t ht) (by simpa using hok)


/-- C5 witness: a persistent 500 gives 4 calls with delays [2, 4, 8]; a 404
surfaces after one call; two 503s followed by success give 3 calls. -/
theorem retryPolicy_witness :
    runFetch (fun _ => RespOutcome.httpErr 500) 0 0 = ⟨.httpErr 500, 4, [2, 4, 8]⟩ ∧
    runFetch (fun _ => RespOutcome.httpErr 404) 0 0 = ⟨.httpErr 404, 1, []⟩ ∧
    (runFetch wResp 0 0).final = .ok 7 ∧ (runFetch wResp 0 0).calls = 3 :=
  ⟨retryPolicy.1 500 (by decide),
   retryPolicy.2.1 404 (by decide),
   (retryPolicy.2.2.2 wResp 7 2 (by decide)
      (fun t ht => ⟨503, by omega, if_pos ht⟩)
      (if_neg (by omega))).1,
   (retryPolicy.2.2.2 wResp 7 2 (by decide)
      (fun t ht => ⟨503, by omega, if_pos ht⟩)
      (if_neg (by omega))).2⟩

/-- Helper: the fuel of `chunksOfAux` is irrelevant as long as it is at
least the list length. -/
theorem chunksOfAux_fuel {α : Type} (c : Nat) :
    ∀ fuel (l : List α), l.length ≤ fuel →
      chunksOfAux c fuel l = chunksOfAux c l.length l := by
  intro fuel
  induction fuel using Nat.strong_induction_on with
  | _ fuel ih =>
    intro l hl
    cases l with
    | nil => simp [chunksOfAux]
    | cons x xs =>
      cases fuel with
      | zero => simp at hl
      | succ f =>
        simp only [List.length_cons] at hl ⊢
        rw [chunksOfAux, chunksOfAux]
        have hd : (xs.drop (c - 1)).length ≤ xs.length := by
          simp [List.length_drop]
        rw [ih f (by omega) _ (by omega),
          ih xs.length (by omega) _ hd]

/-- Helper: the one-step unfolding of the chunk decomposition. -/
theorem chunksOf_cons {α : Type} (c : Nat) (x : α) (xs : List α) :
    chunksOf c (x :: xs) =
      (x :: xs.take (c - 1)) :: chunksOf c (xs.drop (c - 1)) := by
  show chunksOfAux c (x :: xs).length (x :: xs) = _
  simp only [List.length_cons]
  rw [chunksOfAux,
    chunksOfAux_fuel c xs.length _ (by simp [List.length_drop])]
  rfl

/-- Helper: the chunks concatenate back to the input list. -/
theorem flatten_chunksOf {α : Type} (c : Nat) (l : List α) :
    (chunksOf c l).flatten = l := by
  suffices h : ∀ n (l' : List α), l'.length ≤ n → (chunksOf c l').flatten = l' from
    h l.length l (Nat.le_refl _)
  intro n
  induction n with
  | zero =>
    intro l' hl
    cases l' with
    | nil => rfl
    | cons x xs => simp at hl
  | succ n ih =>
    intro l' hl
    cases l' with
    | nil => rfl
    | cons x xs =>
      rw [chunksOf_cons, List.flatten_cons,
        ih (xs.drop (c - 1))
          (by simp only [List.length_drop]; simp only [List.length_cons] at hl; omega),
        List.cons_append, List.take_append_drop]

/-- Helper: chunking does not change the issue order — the loop issues every
item's fetch, in input order, before the function first suspends. -/
theorem batchIssueTrace_eq {α : Type} (items : List α) (c : Nat) :
    batchIssueTrace items c = items.map NetEv.issue := by
  rw [batchIssueTrace, ← List.map_flatten, flatten_chunksOf]

/-- C1: `batchFetchPokemon` does NOT bound in-flight network operations by
`concurrency`.  The loop body contains no `await`; `batch.map(item =>
fetchPokemonFromUrl(item.url))` issues every fetch synchronously while
building the chunk promises, and the only suspension is the final
`await Promise.all(promises)`.  Over 10 distinct uncached references with
`concurrency = 3`, all 10 network operations are unsettled simultaneously
once the loop finishes — the claim (and the `concurrency` parameter's own
name and comment) say the ceiling is 3. -/
theorem batchFetch_inflight_eval :
    maxInFlight (batchLoopTrace [1, 2, 3, 4, 5, 6, 7, 8, 9, 10] 3
      [1, 2, 3, 4, 5, 6, 7, 8, 9, 10]) = 10 ∧
    ¬ maxInFlight (batchLoopTrace [1, 2, 3, 4, 5, 6, 7, 8, 9, 10] 3
      [1, 2, 3, 4, 5, 6, 7, 8, 9, 10]) ≤ 3 := by
  decide

/-- Helper: reading a list back through all positions reproduces it. -/
theorem filterMap_getElem_range {α : Type} (l : List α) :
    (List.range l.length).filterMap (fun i => l[i]?) = l := by
  induction l with
  | nil => rfl
  | cons x t ih =>
    rw [List.length_cons, List.range_succ_eq_map, List.filterMap_cons,
      List.filterMap_map]
    simp only [List.getElem?_cons_zero, Function.comp_def, List.getElem?_cons_succ]
    rw [ih]

/-- Helper: two sorted permutations of each other with no duplicate ids are
equal (sortedness by id determines the list once ids are distinct). -/
theorem sorted_perm_eq_of_nodup_ids :
    ∀ {l₁ l₂ : List RawPokemon}, l₁.Perm l₂ → List.Sorted idLe l₁ →
      List.Sorted idLe l₂ → (l₁.map RawPokemon.id).Nodup → l₁ = l₂ := by
  intro l₁
  induction l₁ with
  | nil =>
    intro l₂ hp _ _ _
    exact (hp.symm.eq_nil).symm
  | cons a t₁ ih =>
    intro l₂ hp hs₁ hs₂ hnd
    cases l₂ with
    | nil => exact absurd hp.eq_nil (by simp)
    | cons b t₂ =>
      have hb₁ : b ∈ a :: t₁ := hp.mem_iff.mpr (List.mem_cons_self b t₂)
      have ha₂ : a ∈ b :: t₂ := hp.mem_iff.mp (List.mem_cons_self a t₁)
      have hs₁' := List.sorted_cons.mp hs₁
      have hs₂' := List.sorted_cons.mp hs₂
      have hid : a.id = b.id := by
        rcases List.mem_cons.mp hb₁ with h | h
        · rw [h]
        · rcases List.mem_cons.mp ha₂ with h' | h'
          · rw [h']
          · exact Nat.le_antisymm (hs₁'.1 b h) (hs₂'.1 a h')
      have hab : a = b := by
        rcases List.mem_cons.mp hb₁ with h | h
        · exact h.symm
        · exfalso
          simp only [List.map_cons, List.nodup_cons] at hnd
          exact hnd.1 (by rw [hid]; exact List.mem_map_of_mem _ h)
      subst hab
      have hnd' : (t₁.map RawPokemon.id).Nodup := by
        simp only [List.map_cons, List.nodup_cons] at hnd
        exact hnd.2
      rw [ih hp.cons_inv hs₁'.2 hs₂'.2 hnd']

/-- Helper: for any completion order that is a permutation of the chunk
indices, the accumulated results are a permutation of the fetches of the
input items. -/
theorem batchCollect_perm (fetch : PokemonListItem → RawPokemon)
    (items : List PokemonListItem) (c : Nat) (order : List Nat)
    (ho : order.Perm (List.range (chunksOf c items).length)) :
    (batchCollect fetch items c order).Perm (items.map fetch) := by
  have h1 : (order.filterMap (fun i => (chunksOf c items)[i]?)).Perm (chunksOf c items) := by
    have h2 := ho.filterMap (fun i => (chunksOf c items)[i]?)
    rwa [filterMap_getElem_range (chunksOf c items)] at h2
  have h3 := (h1.flatten).map fetch
  rwa [flatten_chunksOf] at h3

/-- C6: for every input list of references, every chunk size `c ≥ 1`
(`concurrency = 0` would make the source loop `i += concurrency` spin
forever, so the claim is read for positive concurrency) and every chunk
completion order, `batchFetchPokemon` returns a sequence sorted ascending by
numeric id that is a permutation of the fetched entries; and when the
fetched ids are distinct (the catalog assigns globally unique ids) the
output is one and the same list for every input order and every completion
order. -/
theorem batchFetch_sorted_deterministic (fetch : PokemonListItem → RawPokemon)
    (items : List PokemonListItem) (c : Nat) (order : List Nat)
    (_hc : 1 ≤ c) (ho : order.Perm (List.range (chunksOf c items).length)) :
    List.Sorted idLe (batchFetchPokemon fetch items c order) ∧
    (batchFetchPokemon fetch items c order).Perm (items.map fetch) ∧
    (∀ items₂ order₂, items.Perm items₂ →
      order₂.Perm (List.range (chunksOf c items₂).length) →
      ((items.map fetch).map RawPokemon.id).Nodup →
      batchFetchPokemon fetch items c order = batchFetchPokemon fetch items₂ c order₂) := by
  have hperm : (batchFetchPokemon fetch items c order).Perm (items.map fetch) :=
    (List.perm_insertionSort idLe _).trans (batchCollect_perm fetch items c order ho)
  refine ⟨List.sorted_insertionSort idLe _, hperm, fun items₂ order₂ hi ho₂ hnd => ?_⟩
  have hperm₂ : (batchFetchPokemon fetch items₂ c order₂).Perm (items.map fetch) :=
    ((List.perm_insertionSort idLe _).trans
      (batchCollect_perm fetch items₂ c order₂ ho₂)).trans ((hi.map fetch).symm)
  have h12 : (batchFetchPokemon fetch items c order).Perm
      (batchFetchPokemon fetch items₂ c order₂) := hperm.trans hperm₂.symm
  have hnd₁ : ((batchFetchPokemon fetch items c order).map RawPokemon.id).Nodup :=
    ((hperm.map RawPokemon.id).nodup_iff).mpr hnd
  exact sorted_perm_eq_of_nodup_ids h12 (List.sorted_insertionSort idLe _)
    (List.sorted_insertionSort idLe _) hnd₁

/-- C6 witness: references with ids 5, 1, 3, chunk size 2, second chunk
completing first — the result is sorted and its ids are [1, 3, 5]. -/
theorem batchFetch_sorted_deterministic_witness :
    List.Sorted idLe (batchFetchPokemon wFetch wItems 2 [1, 0]) ∧
    (batchFetchPokemon wFetch wItems 2 [1, 0]).map RawPokemon.id = [1, 3, 5] :=
  ⟨(batchFetch_sorted_deterministic wFetch wItems 2 [1, 0] (by decide) (by decide)).1,
   by decide⟩

/-- C4 counterexample: even for the empty query, the empty-query check runs
inside the `setTimeout(..., 300)` callback, so the empty result is produced
only after the full 300 ms debounce delay — the claim says there is no
debounce delay. -/
theorem searchEmptyQuery_cex :
    (searchPokemonRun [] (fun _ => none) [] [] 20).delayMs = 300 ∧
    (searchPokemonRun [] (fun _ => none) [] [] 20).delayMs ≠ 0 := by
  decide

/-- C4 (amended): every empty or whitespace-only query resolves to the empty
result with no network calls, but only after the 300 ms debounce delay (the
check `!query.trim()` sits inside the debounce callback). -/
theorem searchEmptyQuery (sCache : List (Str × PokemonSummary))
    (fetchRes : PokemonListItem → Option RawPokemon) (q : Str)
    (allPokemon : List PokemonListItem) (maxResults : Nat)
    (h : (trimStr q).isEmpty = true) :
    searchPokemonRun sCache fetchRes q allPokemon maxResults =
      ⟨300, [], 0⟩ := by
  rw [searchPokemonRun, if_pos h]

/-- C4 witness: a whitespace-only query (space, tab) over a nonempty index
resolves to the empty result with no network calls after the 300 ms delay. -/
theorem searchEmptyQuery_witness :
    searchPokemonRun [] (fun _ => none) [32, 9] wItems 20 = ⟨300, [], 0⟩ :=
  searchEmptyQuery [] (fun _ => none) [32, 9] wItems 20 (by decide)

/-- Helper: lowercasing never turns a character into (or out of) whitespace. -/
theorem isWSn_lowerNat (n : Nat) : isWSn (lowerNat n) = isWSn n := by
  unfold lowerNat isWSn
  by_cases h : 65 ≤ n ∧ n ≤ 90
  · rw [if_pos h]
    simp only [decide_eq_decide]
    omega
  · rw [if_neg h]

/-- Helper: trimming commutes with lowercasing. -/
theorem lowerStr_trimStr (s : Str) : trimStr (lowerStr s) = lowerStr (trimStr s) := by
  have hws : isWSn ∘ lowerNat = isWSn := funext isWSn_lowerNat
  unfold trimStr lowerStr
  rw [List.dropWhile_map, hws, ← List.map_reverse, List.dropWhile_map, hws,
    ← List.map_reverse]

/-- Helper: the filter decision only depends on the lowercased name, so a
pointwise case change of the index changes nothing about which positions
are selected. -/
theorem searchFilter_forall₂ (nq : Str) :
    ∀ {idx idx' : List PokemonListItem},
      List.Forall₂ (fun p p' => lowerStr p.name = lowerStr p'.name) idx idx' →
      List.Forall₂ (fun p p' => lowerStr p.name = lowerStr p'.name)
        (idx.filter (fun p => strIncludes (lowerStr p.name) nq))
        (idx'.filter (fun p => strIncludes (lowerStr p.name) nq)) := by
  intro idx idx' hf
  induction hf with
  | nil => exact List.Forall₂.nil
  | cons h hrest ih =>
    rename_i a b l₁ l₂
    have heq : strIncludes (lowerStr a.name) nq = strIncludes (lowerStr b.name) nq := by
      rw [h]
    cases hc : strIncludes (lowerStr a.name) nq with
    | false =>
      have hcb : strIncludes (lowerStr b.name) nq = false := by rw [← heq, hc]
      have e₁ : List.filter (fun p => strIncludes (lowerStr p.name) nq) (a :: l₁) =
          List.filter (fun p => strIncludes (lowerStr p.name) nq) l₁ := by
        simp [List.filter_cons, hc]
      have e₂ : List.filter (fun p => strIncludes (lowerStr p.name) nq) (b :: l₂) =
          List.filter (fun p => strIncludes (lowerStr p.name) nq) l₂ := by
        simp [List.filter_cons, hcb]
      rw [e₁, e₂]
      exact ih
    | true =>
      have hcb : strIncludes (lowerStr b.name) nq = true := by rw [← heq, hc]
      have e₁ : List.filter (fun p => strIncludes (lowerStr p.name) nq) (a :: l₁) =
          a :: List.filter (fun p => strIncludes (lowerStr p.name) nq) l₁ := by
        simp [List.filter_cons, hc]
      have e₂ : List.filter (fun p => strIncludes (lowerStr p.name) nq) (b :: l₂) =
          b :: List.filter (fun p => strIncludes (lowerStr p.name) nq) l₂ := by
        simp [List.filter_cons, hcb]
      rw [e₁, e₂]
      exact List.Forall₂.cons h ih

/-- C7 (amended, for the part_003 variant): the filter step selects exactly
the index entries whose name contains the trimmed query as a
case-insensitive substring, keeping the first `maxResults` such matches in
index order; the selection is invariant under changing the letter case of
the query and of the indexed names.  (In the part_004 variant the indexed
name is not lowercased, so there matching does depend on the name's case —
see the counterexample.) -/
theorem searchFilter_ci (q : Str) (idx : List PokemonListItem) (m : Nat) :
    searchFilter q idx m = (idx.filter (fun p => ciMatchB (trimStr q) p.name)).take m ∧
    (∀ q', lowerStr q' = lowerStr q → searchFilter q' idx m = searchFilter q idx m) ∧
    (∀ idx', List.Forall₂ (fun p p' => lowerStr p.name = lowerStr p'.name) idx idx' →
      List.Forall₂ (fun p p' => lowerStr p.name = lowerStr p'.name)
        (searchFilter q idx m) (searchFilter q idx' m)) := by
  refine ⟨?_, fun q' hq' => ?_, fun idx' hf => ?_⟩
  · simp only [searchFilter, ciMatchB]
    rw [lowerStr_trimStr]
  · simp only [searchFilter]
    rw [hq']
  · simp only [searchFilter]
    exact List.forall₂_take m (searchFilter_forall₂ (trimStr (lowerStr q)) hf)


/-- C7 witness: the uppercase query `PIK` selects the same entries as the
lowercase query `pik`. -/
theorem searchFilter_ci_witness :
    searchFilter [80, 73, 75] wIdxP 20 = searchFilter [112, 105, 107] wIdxP 20 :=
  (searchFilter_ci [112, 105, 107] wIdxP 20).2.1 [80, 73, 75] (by decide)

/-- C7 counterexample: in the part_004 variant the indexed name keeps its
case, so the name `Pikachu` is not selected by the query `pik` although
`pik` occurs in it case-insensitively — matching there does depend on the
letter case of the indexed name. -/
theorem searchFilterAlt_case_cex :
    searchFilterAlt [112, 105, 107] [⟨[80, 105, 107, 97, 99, 104, 117], []⟩] 20 = [] ∧
    ciMatchB [112, 105, 107] [80, 105, 107, 97, 99, 104, 117] = true := by
  decide

/-- Helper: every element goes either to the cached partition or to the
fetch partition, so the two partitions together cover the matches. -/
theorem filterMap_length_filter_isNone {α β : Type} (f : α → Option β) (l : List α) :
    (l.filterMap f).length + (l.filter (fun x => (f x).isNone)).length = l.length := by
  induction l with
  | nil => rfl
  | cons x t ih =>
    cases hf : f x with
    | none =>
      rw [List.filterMap_cons_none hf, List.filter_cons]
      simp only [hf, Option.isNone_none, if_true, List.length_cons]
      omega
    | some b =>
      rw [List.filterMap_cons_some hf, List.filter_cons]
      simp only [hf, Option.isNone_some, List.length_cons]
      simp only [Bool.false_eq_true, if_false]
      omega

/-- C8: a match whose detail fetch fails still appears in the search results,
as the minimal summary carrying only the id parsed from its locator (0 when
the locator does not parse), the name from the index and the locator — no
sprite and no types; and no match is ever dropped (the result has exactly
one summary per match, so an individual failure never fails the search). -/
theorem searchFallback (sCache : List (Str × PokemonSummary))
    (fetchRes : PokemonListItem → Option RawPokemon)
    (ms : List PokemonListItem) (item : PokemonListItem)
    (hmem : item ∈ ms)
    (hcache : lookupKey (summaryKey item.name) sCache = none)
    (hfail : fetchRes item = none) :
    ({ id := fallbackId item.url, name := item.name, url := item.url,
       sprite := none, types := none } : PokemonSummary) ∈
        searchResolve sCache fetchRes ms ∧
    (searchResolve sCache fetchRes ms).length = ms.length := by
  constructor
  · have hfetch : item ∈ ms.filter
        (fun m => (lookupKey (summaryKey m.name) sCache).isNone) :=
      List.mem_filter.mpr ⟨hmem, by rw [hcache]; rfl⟩
    have hres : resolveMatch fetchRes item =
        { id := fallbackId item.url, name := item.name, url := item.url,
          sprite := none, types := none } := by
      rw [resolveMatch, hfail]
    have hmap := List.mem_map_of_mem (resolveMatch fetchRes) hfetch
    rw [hres] at hmap
    exact (List.perm_insertionSort _ _).mem_iff.mpr (List.mem_append_right _ hmap)
  · rw [searchResolve]
    rw [(List.perm_insertionSort _ _).length_eq, List.length_append, List.length_map]
    exact filterMap_length_filter_isNone _ ms


/-- C8 witness: with an empty summary cache and a fetch that fails, the
single match still appears as the minimal summary, the result keeps one
entry per match, and the id parsed from `/pokemon/25/` is 25. -/
theorem searchFallback_witness :
    ({ id := fallbackId wFailItem.url, name := wFailItem.name, url := wFailItem.url,
       sprite := none, types := none } : PokemonSummary) ∈
        searchResolve [] (fun _ => none) [wFailItem] ∧
    (searchResolve [] (fun _ => none) [wFailItem]).length = 1 ∧
    fallbackId wFailItem.url = 25 :=
  ⟨(searchFallback [] (fun _ => none) [wFailItem] wFailItem (by decide) rfl rfl).1,
   (searchFallback [] (fun _ => none) [wFailItem] wFailItem (by decide) rfl rfl).2,
   by decide⟩

/-- Helper: one cache operation preserves the capacity bound and keeps the
`Map` insertion order equal to the spec-side recency order. -/
theorem lru_step {T : Type} (cap : Nat) (hcap : 1 ≤ cap) (c : LRUCache T)
    (ks : List Str) (op : CacheOp T)
    (hmax : c.maxSize = cap) (hkeys : c.entries.map Prod.fst = ks)
    (hnd : ks.Nodup) (hlen : c.entries.length ≤ cap) :
    (applyOp c op).maxSize = cap ∧
    (applyOp c op).entries.map Prod.fst = recencyStep cap ks op ∧
    (recencyStep cap ks op).Nodup ∧
    (applyOp c op).entries.length ≤ cap := by
  have hndE : (c.entries.map Prod.fst).Nodup := hkeys ▸ hnd
  cases op with
  | get k =>
    rw [applyOp, LRUCache.get]
    cases hl : lookupKey k c.entries with
    | none =>
      have hk : k ∉ ks := hkeys ▸ (lookupKey_eq_none_iff k c.entries).mp hl
      rw [recencyStep, if_neg hk]
      exact ⟨hmax, hkeys, hnd, hlen⟩
    | some v =>
      have hk : k ∈ ks := by
        rw [← hkeys, ← lookupKey_isSome_iff (V := T)]
        rw [hl]
        rfl
      rw [recencyStep, if_pos hk]
      refine ⟨hmax, ?_, ?_, ?_⟩
      · rw [List.map_append, map_fst_eraseKey_nodup hndE, hkeys]
        rfl
      · rw [List.nodup_append]
        exact ⟨(eraseName_sublist k ks).nodup hnd, List.nodup_singleton k,
          fun x hx hy => not_mem_eraseName hnd (by rwa [List.mem_singleton.mp hy] at hx)⟩
      · rw [List.length_append]
        have := length_eraseKey_nodup hndE hl
        simpa using by omega
  | set k v =>
    rw [applyOp, LRUCache.set]
    by_cases hl : (lookupKey k c.entries).isSome
    · obtain ⟨v', hv'⟩ := Option.isSome_iff_exists.mp hl
      have hk : k ∈ ks := hkeys ▸ (lookupKey_isSome_iff k c.entries).mp hl
      rw [if_pos hl, recencyStep, if_pos hk]
      refine ⟨hmax, ?_, ?_, ?_⟩
      · rw [List.map_append, map_fst_eraseKey_nodup hndE, hkeys]
        rfl
      · rw [List.nodup_append]
        exact ⟨(eraseName_sublist k ks).nodup hnd, List.nodup_singleton k,
          fun x hx hy => not_mem_eraseName hnd (by rwa [List.mem_singleton.mp hy] at hx)⟩
      · rw [List.length_append]
        have := length_eraseKey_nodup hndE hv'
        simpa using by omega
    · have hk : k ∉ ks := by
        rw [← hkeys, ← lookupKey_eq_none_iff (V := T)]
        exact Option.not_isSome_iff_eq_none.mp hl
      have hlenk : ks.length = c.entries.length := by
        rw [← hkeys, List.length_map]
      rw [if_neg hl, recencyStep, if_neg hk]
      by_cases hfull : c.maxSize ≤ c.entries.length
      · rw [if_pos hfull, if_pos (by omega : cap ≤ ks.length)]
        refine ⟨hmax, ?_, ?_, ?_⟩
        · rw [List.map_append, List.map_tail, hkeys]
          rfl
        · rw [List.nodup_append]
          exact ⟨hnd.sublist (List.tail_sublist ks), List.nodup_singleton k,
            fun x hx hy => hk (by
              rw [List.mem_singleton.mp hy] at hx
              exact (List.tail_sublist ks).mem hx)⟩
        · rw [List.length_append, List.length_tail]
          simp only [List.length_singleton]
          omega
      · rw [if_neg hfull, if_neg (by omega : ¬ cap ≤ ks.length)]
        refine ⟨hmax, ?_, ?_, ?_⟩
        · rw [List.map_append, hkeys]
          rfl
        · rw [List.nodup_append]
          exact ⟨hnd, List.nodup_singleton k,
            fun x hx hy => hk (by rwa [List.mem_singleton.mp hy] at hx)⟩
        · rw [List.length_append]
          simp only [List.length_singleton]
          omega

/-- Helper: the fold over any operation sequence preserves the invariant. -/
theorem lru_fold {T : Type} (cap : Nat) (hcap : 1 ≤ cap) :
    ∀ (ops : List (CacheOp T)) (c : LRUCache T) (ks : List Str),
      c.maxSize = cap → c.entries.map Prod.fst = ks → ks.Nodup →
      c.entries.length ≤ cap →
      (ops.foldl applyOp c).maxSize = cap ∧
      (ops.foldl applyOp c).entries.map Prod.fst = ops.foldl (recencyStep cap) ks ∧
      (ops.foldl (recencyStep cap) ks).Nodup ∧
      (ops.foldl applyOp c).entries.length ≤ cap := by
  intro ops
  induction ops with
  | nil => exact fun c ks h1 h2 h3 h4 => ⟨h1, h2, h3, h4⟩
  | cons op rest ih =>
    intro c ks h1 h2 h3 h4
    obtain ⟨g1, g2, g3, g4⟩ := lru_step cap hcap c ks op h1 h2 h3 h4
    simpa using ih (applyOp c op) (recencyStep cap ks op) g1 g2 g3 g4

/-- C2 (amended — the capacity must be positive: a capacity-0 cache still
accepts one entry, see the counterexample): for every operation sequence on
a cache of capacity `cap ≥ 1`, the size never exceeds `cap`, and the `Map`
insertion order of the cached keys coincides with the spec's recency order
(oldest first) — so `get`/`set` of a present key promotes it to
most-recently-used, and a `set` of a new key at full capacity evicts exactly
the least-recently-used key, the head of that order. -/
theorem lru_bounded_recency (T : Type) (cap : Nat) (hcap : 1 ≤ cap)
    (ops : List (CacheOp T)) :
    (runOps T cap ops).size ≤ cap ∧
    (runOps T cap ops).entries.map Prod.fst = recencyRun T cap ops ∧
    (recencyRun T cap ops).Nodup := by
  obtain ⟨h1, h2, h3, h4⟩ :=
    lru_fold cap hcap ops (LRUCache.empty T cap) [] rfl rfl List.nodup_nil
      (by simp [LRUCache.empty])
  exact ⟨h4, h2, h3⟩

/-- C2 counterexample: a cache constructed with capacity 0 still accepts an
entry — on the insert path the map is empty, `keys().next().value` is
`undefined`, the delete is a no-op, and the `set` goes through, so the size
(1) exceeds the configured capacity (0). -/
theorem lru_cap_zero_cex :
    (runOps Nat 0 [CacheOp.set [97] 5]).size = 1 ∧
    ¬ (runOps Nat 0 [CacheOp.set [97] 5]).size ≤ 0 := by
  decide


/-- C2 witness: in the §8 scenario the bound holds, the key order tracks the
recency order, and the eviction hits `b` (the least recently touched), not
`a`: the final keys are `a`, `c`. -/
theorem lru_bounded_recency_witness :
    (runOps Nat 2 wOps).size ≤ 2 ∧
    (runOps Nat 2 wOps).entries.map Prod.fst = recencyRun Nat 2 wOps ∧
    recencyRun Nat 2 wOps = [[97], [99]] :=
  ⟨(lru_bounded_recency Nat 2 (by decide) wOps).1,
   (lru_bounded_recency Nat 2 (by decide) wOps).2.1,
   by decide⟩

/-- Helper: a `Nodup` image makes the projection injective on members. -/
theorem snd_inj_of_nodup {V : Type} {l : List (Str × V)} [DecidableEq V]
    (h : (l.map Prod.snd).Nodup) :
    ∀ e ∈ l, ∀ e' ∈ l, e.2 = e'.2 → e = e' :=
  fun _ he _ he' hs => List.inj_on_of_nodup_map h he he' hs

/-- Helper: the initial registry state satisfies the invariant. -/
theorem regInv_init (cap : Nat) : RegInv (Registry.init cap) := by
  refine ⟨?_, ?_, ?_, ?_, ?_, ?_, ?_⟩ <;>
    simp [Registry.init, startsFor, settlesFor, lookupKey]

/-- Helper: every step preserves the registry invariant. -/
theorem regInv_step (s : Registry) (act : RegAct) (h : RegInv s) :
    RegInv (regStep s act) := by
  cases act with
  | call k =>
    simp only [regStep]
    by_cases hch : s.cache.has k = true
    · rw [if_pos hch]
      exact ⟨h.pendKeysNodup, h.pendOpsNodup, h.pendOpsLt, h.settledLt,
        h.pendSettledDisj, h.settledOpsNodup, h.counts⟩
    · rw [if_neg hch]
      cases hl : lookupKey k s.pending with
      | some op => exact h
      | none =>
        refine ⟨?_, ?_, ?_, ?_, ?_, ?_, ?_⟩
        · rw [List.map_cons, List.nodup_cons]
          exact ⟨(lookupKey_eq_none_iff k s.pending).mp hl, h.pendKeysNodup⟩
        · rw [List.map_cons, List.nodup_cons]
          refine ⟨fun hmem => ?_, h.pendOpsNodup⟩
          rcases List.mem_map.mp hmem with ⟨e, he, hsnd⟩
          exact absurd (hsnd ▸ h.pendOpsLt e he) (by omega)
        · intro e he
          rcases List.mem_cons.mp he with h' | h'
          · rw [h']
            exact Nat.lt_succ_self _
          · exact Nat.lt_succ_of_lt (h.pendOpsLt e h')
        · exact fun d hd => Nat.lt_succ_of_lt (h.settledLt d hd)
        · intro e he d hd
          rcases List.mem_cons.mp he with h' | h'
          · rw [h']
            exact fun hop => absurd (hop ▸ h.settledLt d hd) (by omega)
          · exact h.pendSettledDisj e h' d hd
        · exact h.settledOpsNodup
        · intro k'
          rw [startsFor, settlesFor, List.countP_cons]
          by_cases hk : k = k'
          · subst hk
            simp only [decide_eq_true_eq]
            rw [if_pos trivial]
            have := h.counts k
            rw [startsFor, settlesFor] at this
            rw [hl] at this
            simp only [Option.isSome_none] at this
            rw [lookupKey, if_pos rfl]
            simp only [Option.isSome_some, if_true]
            simp only [Bool.false_eq_true, if_false] at this
            omega
          · simp only [decide_eq_true_eq]
            rw [if_neg hk]
            have := h.counts k'
            rw [startsFor, settlesFor] at this
            rw [lookupKey, if_neg hk]
            omega
  | settle k o =>
    simp only [regStep]
    cases hl : lookupKey k s.pending with
    | none => exact h
    | some op =>
      have hpmem : (k, op) ∈ s.pending := lookupKey_mem hl
      refine ⟨?_, ?_, ?_, ?_, ?_, ?_, ?_⟩
      · exact h.pendKeysNodup.sublist ((eraseKey_sublist k s.pending).map Prod.fst)
      · exact h.pendOpsNodup.sublist ((eraseKey_sublist k s.pending).map Prod.snd)
      · exact fun e he => h.pendOpsLt e (mem_eraseKey.mp he).1
      · intro d hd
        rcases List.mem_cons.mp hd with h' | h'
        · rw [h']
          exact h.pendOpsLt _ hpmem
        · exact h.settledLt d h'
      · intro e he d hd
        obtain ⟨he1, he2⟩ := mem_eraseKey.mp he
        rcases List.mem_cons.mp hd with h' | h'
        · rw [h']
          intro hop
          have := snd_inj_of_nodup h.pendOpsNodup e he1 (k, op) hpmem hop
          exact he2 (by rw [this])
        · exact h.pendSettledDisj e he1 d h'
      · rw [List.map_cons, List.nodup_cons]
        refine ⟨fun hmem => ?_, h.settledOpsNodup⟩
        rcases List.mem_map.mp hmem with ⟨d, hd, hfst⟩
        exact h.pendSettledDisj (k, op) hpmem d hd hfst.symm
      · intro k'
        rw [startsFor, settlesFor, List.countP_cons]
        by_cases hk : k = k'
        · subst hk
          simp only [decide_eq_true_eq]
          rw [if_pos trivial, lookupKey_eraseKey_self]
          have := h.counts k
          rw [startsFor, settlesFor, hl] at this
          simp only [Option.isSome_some, if_true] at this
          simp only [Option.isSome_none]
          simp only [Bool.false_eq_true, if_false]
          omega
        · simp only [decide_eq_true_eq]
          rw [if_neg hk, lookupKey_eraseKey_ne s.pending (fun he => hk he.symm)]
          have := h.counts k'
          rw [startsFor, settlesFor] at this
          omega

/-- Helper: the invariant holds after any action sequence. -/
theorem regInv_fold : ∀ (acts : List RegAct) (s : Registry), RegInv s →
    RegInv (acts.foldl regStep s) := by
  intro acts
  induction acts with
  | nil => exact fun s h => h
  | cons act rest ih => exact fun s h => ih (regStep s act) (regInv_step s act h)

/-- Helper: every reachable registry state satisfies the invariant. -/
theorem regInv_run (cap : Nat) (acts : List RegAct) : RegInv (runReg cap acts) :=
  regInv_fold acts (Registry.init cap) (regInv_init cap)

/-- C3: in every reachable state of the fetch layer, (i) at most one pending
operation is registered per key; (ii) the network operations started for a
key never exceed the settled ones by more than one — a new request for a key
can only be issued after the previous one was removed on completion;
(iii) a caller that finds a pending operation for its key (and no cache hit)
joins it: the state is unchanged and no network operation starts; (iv) a
settle — success or failure — removes the registration for its key; (v) no
operation ever settles twice, so all callers that joined one operation
observe the one outcome it settled with. -/
theorem dedupRegistry (cap : Nat) (acts : List RegAct) :
    ((runReg cap acts).pending.map Prod.fst).Nodup ∧
    (∀ k, startsFor (runReg cap acts) k ≤ settlesFor (runReg cap acts) k + 1) ∧
    (∀ k op, (runReg cap acts).cache.has k = false →
      lookupKey k (runReg cap acts).pending = some op →
      regStep (runReg cap acts) (RegAct.call k) = runReg cap acts) ∧
    (∀ k o, lookupKey k (regStep (runReg cap acts) (RegAct.settle k o)).pending = none) ∧
    ((runReg cap acts).settled.map Prod.fst).Nodup := by
  have h := regInv_run cap acts
  refine ⟨h.pendKeysNodup, fun k => ?_, fun k op hch hl => ?_, fun k o => ?_,
    h.settledOpsNodup⟩
  · have hc := h.counts k
    by_cases hif : (lookupKey k (runReg cap acts).pending).isSome = true
    · rw [if_pos hif] at hc
      omega
    · rw [if_neg hif] at hc
      omega
  · simp only [regStep]
    rw [if_neg (by simp [hch]), hl]
  · cases hl : lookupKey k (runReg cap acts).pending with
    | none =>
      simp only [regStep, hl]
    | some op =>
      simp only [regStep, hl]
      exact lookupKey_eraseKey_self k _


/-- C3 witness: after two concurrent calls for key `a`, the second caller
joined (the state is that of one call, with exactly one started operation),
and the start/settle counts stay within one of each other. -/
theorem dedupRegistry_witness :
    regStep (runReg 300 wActs) (RegAct.call [97]) = runReg 300 wActs ∧
    startsFor (runReg 300 wActs) [97] ≤ settlesFor (runReg 300 wActs) [97] + 1 ∧
    startsFor (runReg 300 wActs) [97] = 1 :=
  ⟨(dedupRegistry 300 wActs).2.2.1 [97] 0 (by decide) (by decide),
   (dedupRegistry 300 wActs).2.1 [97],
   by decide⟩

/-- Helper: a key just written by `set` is found with its new value. -/
theorem lookupKey_snoc_self {V : Type} (l : List (Str × V)) (k : Str) (v : V) :
    lookupKey k (l ++ [(k, v)]) = (lookupKey k l).or (some v) := by
  have hone : lookupKey k [(k, v)] = some v := by
    rw [lookupKey, if_pos rfl]
  rw [lookupKey_append, hone]

/-- Helper: after `LRUCache.set k v` the key `k` maps to `v`. -/
theorem lookupKey_lruSet_self {T : Type} (c : LRUCache T) (k : Str) (v : T) :
    lookupKey k (c.set k v).entries = some v := by
  rw [LRUCache.set]
  by_cases h1 : (lookupKey k c.entries).isSome
  · rw [if_pos h1]
    rw [lookupKey_snoc_self, lookupKey_eraseKey_self]
    rfl
  · have hnone : lookupKey k c.entries = none := Option.not_isSome_iff_eq_none.mp h1
    have hk : k ∉ c.entries.map Prod.fst := (lookupKey_eq_none_iff k _).mp hnone
    rw [if_neg h1]
    by_cases h2 : c.maxSize ≤ c.entries.length
    · rw [if_pos h2]
      have htail : lookupKey k c.entries.tail = none := by
        rw [lookupKey_eq_none_iff]
        exact fun hmem => hk (((List.tail_sublist c.entries).map Prod.fst).subset hmem)
      rw [lookupKey_snoc_self, htail]
      rfl
    · rw [if_neg h2, lookupKey_snoc_self, hnone]
      rfl

/-- C9: starting from any state in which key `k` is neither cached nor
pending, a call for `k` issues one network operation; after it settles
successfully with value `v`, the value is in the cache, and a second call
for `k` is a pure cache hit: it returns the same value `v` from the cache
and issues no new network operation. -/
theorem fetchDetails_idempotent (s : Registry) (k : Str) (v : Nat)
    (hch : s.cache.has k = false) (hpend : lookupKey k s.pending = none) :
    (regStep s (RegAct.call k)).started.length = s.started.length + 1 ∧
    (regStep (regStep s (RegAct.call k))
        (RegAct.settle k (FetchOutcome.ok v))).cache.has k = true ∧
    ((regStep (regStep s (RegAct.call k))
        (RegAct.settle k (FetchOutcome.ok v))).cache.get k).1 = some v ∧
    (regStep (regStep (regStep s (RegAct.call k))
        (RegAct.settle k (FetchOutcome.ok v))) (RegAct.call k)).started =
      (regStep (regStep s (RegAct.call k))
        (RegAct.settle k (FetchOutcome.ok v))).started := by
  have hs1 : regStep s (RegAct.call k) =
      { s with pending := (k, s.nextOp) :: s.pending,
               started := (s.nextOp, k) :: s.started,
               nextOp := s.nextOp + 1 } := by
    simp only [regStep]
    rw [if_neg (by simp [hch]), hpend]
  have hlk : lookupKey k ((k, s.nextOp) :: s.pending) = some s.nextOp := by
    rw [lookupKey, if_pos rfl]
  have he : eraseKey k ((k, s.nextOp) :: s.pending) = s.pending := by
    rw [eraseKey, if_pos rfl,
      eraseKey_of_not_mem ((lookupKey_eq_none_iff k s.pending).mp hpend)]
  have hs2 : regStep (regStep s (RegAct.call k)) (RegAct.settle k (FetchOutcome.ok v)) =
      { s with cache := s.cache.set k v,
               pending := s.pending,
               started := (s.nextOp, k) :: s.started,
               nextOp := s.nextOp + 1,
               settled := (s.nextOp, k, FetchOutcome.ok v) :: s.settled } := by
    rw [hs1]
    simp only [regStep]
    rw [hlk, he]
  have hhas : ((s.cache.set k v).has k) = true := by
    rw [LRUCache.has, lookupKey_lruSet_self]
    rfl
  refine ⟨by rw [hs1]; rfl, by rw [hs2]; exact hhas, ?_, ?_⟩
  · rw [hs2]
    show ((s.cache.set k v).get k).1 = some v
    rw [LRUCache.get, lookupKey_lruSet_self]
  · rw [hs2]
    simp only [regStep]
    rw [if_pos hhas]

/-- C9 witness: from the initial state, fetch key `a`, let it settle with
value 7, fetch again: the second call is a cache hit returning 7 and starts
nothing new. -/
theorem fetchDetails_idempotent_witness :
    (regStep (Registry.init 300) (RegAct.call [97])).started.length =
      (Registry.init 300).started.length + 1 ∧
    ((regStep (regStep (Registry.init 300) (RegAct.call [97]))
        (RegAct.settle [97] (FetchOutcome.ok 7))).cache.get [97]).1 = some 7 ∧
    (regStep (regStep (regStep (Registry.init 300) (RegAct.call [97]))
        (RegAct.settle [97] (FetchOutcome.ok 7))) (RegAct.call [97])).started =
      (regStep (regStep (Registry.init 300) (RegAct.call [97]))
        (RegAct.settle [97] (FetchOutcome.ok 7))).started :=
  ⟨(fetchDetails_idempotent (Registry.init 300) [97] 7 (by decide) (by decide)).1,
   (fetchDetails_idempotent (Registry.init 300) [97] 7 (by decide) (by decide)).2.2.1,
   (fetchDetails_idempotent (Registry.init 300) [97] 7 (by decide) (by decide)).2.2.2⟩
